import Mathlib

/-!
Verification of the minicompiler front end (src/main.rs): a character-level
tokenizer `lex` and a shunting-yard precedence reorderer `parse`.

Modelling conventions, matching the Rust source:
* `Vec<Token>` used as a stack (push/pop/top at the Vec's end) is modelled as a
  `List Token` kept most-recent-first (head = top of stack); output vectors are
  likewise accumulated head-first and reversed on return.
* Rust `i32` arithmetic is modelled as `Int` with explicit two's-complement
  wraparound (`wrap32`), i.e. the release-profile semantics of the overflowing
  accumulation `(i * 10) + num`; the spec leaves literal overflow
  implementation-defined.
* The reorderer's internal panic points (`unreachable!`, the final
  `assert!(stack.is_empty())`) are modelled by returning `none`; a normal
  result or parsing error is `some`.
-/

namespace Minicompiler

/-- Mathematical operations that our compiler can do (`enum Op`). -/
inductive Op
  | Mul
  | Div
  | Add
  | Sub
  deriving DecidableEq

/-- `const PREC_MUL: i32 = 3`. -/
def PREC_MUL : Int := 3

/-- `const PREC_ADD: i32 = 2`. -/
def PREC_ADD : Int := 2

/-- `Op::precedence`: Mul and Div share the higher rank, Add and Sub the lower. -/
def Op.precedence : Op → Int
  | .Mul | .Div => PREC_MUL
  | .Add | .Sub => PREC_ADD

/-- All of the possible tokens for the compiler (`enum Token`). -/
inductive Token
  | EOF
  | Number (n : Int)
  | Operation (op : Op)
  | LeftParen
  | RightParen
  deriving DecidableEq

/-- All possible parsing errors (`enum ParsingError`). -/
inductive ParsingError
  | BadInput
  | NoMatchingParen
  deriving DecidableEq

/-- Two's-complement reduction of an integer into the `i32` range
`[-2^31, 2^31)`; the Rust source stores literal values in an `i32`, so the
accumulation `(i * 10) + num` wraps modulo `2^32`. -/
def wrap32 (x : Int) : Int := (x + 2 ^ 31) % 2 ^ 32 - 2 ^ 31

/-- `(character as u8 - '0' as u8) as i32` for a digit character. -/
def digitVal (c : Char) : Int := ((c.toNat - '0'.toNat : Nat) : Int)

/-- The ten digit patterns of the tokenizer's number arm
(`'0' | '1' | ... | '9'`). -/
abbrev isDigitChar (c : Char) : Prop :=
  c = '0' ∨ c = '1' ∨ c = '2' ∨ c = '3' ∨ c = '4' ∨
  c = '5' ∨ c = '6' ∨ c = '7' ∨ c = '8' ∨ c = '9'

/-- The character loop of `lex`. The accumulated token vector is kept
most-recent-first (so `result.pop()` inspects the head) and reversed when the
loop returns. Branches mirror the Rust `match character` arms in order. -/
def lexLoop : List Char → List Token → Except ParsingError (List Token)
  | [], result => .ok result.reverse
  | c :: rest, result =>
    -- Skip whitespace
    if c = ' ' then lexLoop rest result
    -- Ending characters
    else if c = ';' ∨ c = '\n' then .ok (Token.EOF :: result).reverse
    -- Math operations
    else if c = '*' then lexLoop rest (Token.Operation Op.Mul :: result)
    else if c = '/' then lexLoop rest (Token.Operation Op.Div :: result)
    else if c = '+' then lexLoop rest (Token.Operation Op.Add :: result)
    else if c = '-' then lexLoop rest (Token.Operation Op.Sub :: result)
    -- Parentheses
    else if c = '(' then lexLoop rest (Token.LeftParen :: result)
    else if c = ')' then lexLoop rest (Token.RightParen :: result)
    -- Numbers: merge into the last token when it is a literal
    else if isDigitChar c then
      match result with
      | Token.Number i :: result' =>
          lexLoop rest (Token.Number (wrap32 (i * 10 + digitVal c)) :: result')
      | _ => lexLoop rest (Token.Number (digitVal c) :: result)
    -- Everything else is bad input
    else .error ParsingError.BadInput

/-- Turns a string of input into a slice of tokens (`fn lex`). -/
def lex (input : String) : Except ParsingError (List Token) :=
  lexLoop input.data []

/-- `fn tilt_until`: pops `operators` into `output` until `stop` is popped;
returns whether `stop` was found together with the two updated vectors (the
Rust version mutates them in place and returns only the `bool`). -/
def tilt_until : List Token → List Token → Token → Bool × List Token × List Token
  | [], output, _ => (false, [], output)
  | token :: rest, output, stop =>
    if token = stop then (true, rest, output)
    else tilt_until rest (token :: output) stop

/-- The `while let Some(top) = stack.top()` loop of `parse`'s operator arm:
pops operators of strictly greater precedence into the output, stops on an
open paren or a lower-or-equal precedence operator; `none` models the
`unreachable!` arm (a non-operator, non-paren token on the stack). -/
def popHigherPrec (op : Op) : List Token → List Token → Option (List Token × List Token)
  | [], result => some ([], result)
  | Token.LeftParen :: rest, result => some (Token.LeftParen :: rest, result)
  | Token.Operation top_op :: rest, result =>
    if top_op.precedence > op.precedence then
      popHigherPrec op rest (Token.Operation top_op :: result)
    else some (Token.Operation top_op :: rest, result)
  | _ :: _, _ => none

/-- The code after `parse`'s token loop: drain the stack; finding a leftover
open paren is an unmatched-paren error, and `assert!(stack.is_empty())` is
modelled by `none` when the drained stack is somehow non-empty. -/
def parseFinish (result stack : List Token) : Option (Except ParsingError (List Token)) :=
  match tilt_until stack result Token.LeftParen with
  | (true, _, _) => some (.error ParsingError.NoMatchingParen)
  | (false, stack', result') =>
    if stack' = [] then some (.ok result'.reverse) else none

/-- The `for tok in tokens` loop of `parse`, carrying the output vector
(head-first) and the operator stack (head = top). -/
def parseLoop : List Token → List Token → List Token → Option (Except ParsingError (List Token))
  | [], result, stack => parseFinish result stack
  | tok :: rest, result, stack =>
    match tok with
    | Token.Number _ => parseLoop rest (tok :: result) stack
    | Token.LeftParen => parseLoop rest result (tok :: stack)
    | Token.RightParen =>
      match tilt_until stack result Token.LeftParen with
      | (false, _, _) => some (.error ParsingError.NoMatchingParen)
      | (true, stack', result') => parseLoop rest result' stack'
    | Token.Operation op =>
      match popHigherPrec op stack result with
      | none => none
      | some (stack', result') => parseLoop rest result' (tok :: stack')
    | Token.EOF => parseFinish result stack

/-- `fn parse`: shunting-yard reordering of a token sequence into postfix
order; `none` models an internal panic, which `parse_stack_invariant` below
shows never happens. -/
def parse (tokens : List Token) : Option (Except ParsingError (List Token)) :=
  parseLoop tokens [] []

/-- Tokens the reorderer's auxiliary stack may hold. -/
def isStackable : Token → Bool
  | Token.Operation _ => true
  | Token.LeftParen => true
  | _ => false

/-- Operator tokens. -/
def isOperation : Token → Bool
  | Token.Operation _ => true
  | _ => false

/-- Integer-literal tokens. -/
def isNumber : Token → Bool
  | Token.Number _ => true
  | _ => false

/-- Integer-literal or operator tokens (the tokens the reorderer emits). -/
def isNumOp : Token → Bool
  | Token.Number _ => true
  | Token.Operation _ => true
  | _ => false

/-- The stack tokens popped ahead of an incoming operator `op`: operators of
strictly greater precedence. -/
def popsBefore (op : Op) : Token → Bool
  | Token.Operation top_op => decide (top_op.precedence > op.precedence)
  | _ => false

/-- The prefix of a token sequence before the first end-marker. -/
def preEOF (ts : List Token) : List Token :=
  ts.takeWhile fun t => decide (t ≠ Token.EOF)

/-! ### Characterizations of the stack primitives -/

theorem tilt_until_not_mem {stop : Token} {st : List Token} (out : List Token)
    (h : stop ∉ st) :
    tilt_until st out stop = (false, [], st.reverse ++ out) := by
  induction st generalizing out with
  | nil => simp [tilt_until]
  | cons t rest ih =>
    rw [List.mem_cons, not_or] at h
    simp only [tilt_until, if_neg (Ne.symm h.1)]
    rw [ih (t :: out) h.2]
    simp

theorem tilt_until_found {stop : Token} :
    ∀ (A : List Token) (S out : List Token), stop ∉ A →
      tilt_until (A ++ stop :: S) out stop = (true, S, A.reverse ++ out) := by
  intro A
  induction A with
  | nil => intro S out _; simp [tilt_until]
  | cons a A ih =>
    intro S out h
    rw [List.mem_cons, not_or] at h
    simp only [List.cons_append, tilt_until, if_neg (Ne.symm h.1), List.append_eq]
    rw [ih S (a :: out) h.2]
    simp

theorem exists_first_occurrence {t : Token} :
    ∀ {st : List Token}, t ∈ st → ∃ A S, st = A ++ t :: S ∧ t ∉ A := by
  intro st
  induction st with
  | nil => intro h; cases h
  | cons a rest ih =>
    intro h
    by_cases ha : t = a
    · exact ⟨[], rest, by simp [ha], by simp⟩
    · rcases List.mem_cons.mp h with h' | h'
      · exact absurd h' ha
      · rcases ih h' with ⟨A, S, hst, hA⟩
        refine ⟨a :: A, S, by simp [hst], ?_⟩
        rw [List.mem_cons, not_or]
        exact ⟨ha, hA⟩

theorem popHigherPrec_eq (op : Op) :
    ∀ (st out : List Token), (∀ x ∈ st, isStackable x = true) →
      popHigherPrec op st out =
        some (st.dropWhile (popsBefore op), (st.takeWhile (popsBefore op)).reverse ++ out) := by
  intro st
  induction st with
  | nil => intro out _; simp [popHigherPrec]
  | cons x rest ih =>
    intro out h
    have hx := h x (List.mem_cons_self x rest)
    have hrest : ∀ y ∈ rest, isStackable y = true :=
      fun y hy => h y (List.mem_cons_of_mem _ hy)
    cases x with
    | LeftParen =>
      have hpb : popsBefore op Token.LeftParen = false := rfl
      simp [popHigherPrec, List.dropWhile_cons, List.takeWhile_cons, hpb]
    | Operation top_op =>
      by_cases hp : top_op.precedence > op.precedence
      · have hpb : popsBefore op (Token.Operation top_op) = true := by
          simp [popsBefore, hp]
        simp only [popHigherPrec, if_pos hp]
        rw [ih (Token.Operation top_op :: out) hrest,
          List.dropWhile_cons_of_pos hpb, List.takeWhile_cons_of_pos hpb]
        simp
      · have hpb : popsBefore op (Token.Operation top_op) = false := by
          simp [popsBefore, hp]
        simp [popHigherPrec, if_neg hp, List.dropWhile_cons, List.takeWhile_cons, hpb]
    | EOF => simp [isStackable] at hx
    | Number n => simp [isStackable] at hx
    | RightParen => simp [isStackable] at hx

theorem isOperation_of_popsBefore {op : Op} {t : Token} (h : popsBefore op t = true) :
    isOperation t = true := by
  cases t <;> simp_all [popsBefore, isOperation]

theorem parseFinish_of_not_mem {result stack : List Token}
    (h : Token.LeftParen ∉ stack) :
    parseFinish result stack = some (.ok (result.reverse ++ stack)) := by
  unfold parseFinish
  rw [tilt_until_not_mem result h]
  simp

theorem parseFinish_of_mem {result stack : List Token}
    (h : Token.LeftParen ∈ stack) :
    parseFinish result stack = some (.error ParsingError.NoMatchingParen) := by
  rcases exists_first_occurrence h with ⟨A, S, rfl, hA⟩
  unfold parseFinish
  rw [tilt_until_found A S result hA]

theorem parseFinish_isSome (result stack : List Token) :
    (parseFinish result stack).isSome = true := by
  by_cases h : Token.LeftParen ∈ stack
  · rw [parseFinish_of_mem h]; rfl
  · rw [parseFinish_of_not_mem h]; rfl

/-- Step equation for the reorderer's operator arm, in terms of
`takeWhile`/`dropWhile`, valid when the stack holds only operators and open
parens. -/
theorem parseLoop_operation_step (op : Op) (ts result stack : List Token)
    (h : ∀ t ∈ stack, isStackable t = true) :
    parseLoop (Token.Operation op :: ts) result stack =
      parseLoop ts ((stack.takeWhile (popsBefore op)).reverse ++ result)
        (Token.Operation op :: stack.dropWhile (popsBefore op)) := by
  simp only [parseLoop]
  rw [popHigherPrec_eq op stack result h]

theorem parseLoop_rightParen_found (ts result : List Token) {A : List Token}
    (S : List Token) (hA : Token.LeftParen ∉ A) :
    parseLoop (Token.RightParen :: ts) result (A ++ Token.LeftParen :: S) =
      parseLoop ts (A.reverse ++ result) S := by
  simp only [parseLoop]
  rw [tilt_until_found A S result hA]

theorem parseLoop_rightParen_not_found (ts result : List Token) {stack : List Token}
    (h : Token.LeftParen ∉ stack) :
    parseLoop (Token.RightParen :: ts) result stack =
      some (.error ParsingError.NoMatchingParen) := by
  simp only [parseLoop]
  rw [tilt_until_not_mem result h]

/-- The no-panic induction: from any state whose stack holds only operators and
open parens, the reorderer's loop completes without hitting `unreachable!` or
a failing `assert!`. -/
theorem parseLoop_isSome :
    ∀ (ts result stack : List Token), (∀ t ∈ stack, isStackable t = true) →
      (parseLoop ts result stack).isSome = true := by
  intro ts
  induction ts with
  | nil => intro result stack _; exact parseFinish_isSome result stack
  | cons tok rest ih =>
    intro result stack h
    cases tok with
    | Number n => exact ih (Token.Number n :: result) stack h
    | EOF => exact parseFinish_isSome result stack
    | LeftParen =>
      refine ih result (Token.LeftParen :: stack) ?_
      intro t ht
      rcases List.mem_cons.mp ht with rfl | ht'
      · rfl
      · exact h t ht'
    | RightParen =>
      by_cases hm : Token.LeftParen ∈ stack
      · rcases exists_first_occurrence hm with ⟨A, S, rfl, hA⟩
        rw [parseLoop_rightParen_found rest result S hA]
        refine ih (A.reverse ++ result) S ?_
        intro t ht
        exact h t (List.mem_append_right A (List.mem_cons_of_mem _ ht))
      · rw [parseLoop_rightParen_not_found rest result hm]
        rfl
    | Operation op =>
      rw [parseLoop_operation_step op rest result stack h]
      refine ih _ (Token.Operation op :: stack.dropWhile (popsBefore op)) ?_
      intro t ht
      rcases List.mem_cons.mp ht with rfl | ht'
      · rfl
      · exact h t (List.dropWhile_subset _ ht')

/-! ### Token content of a successful reordering -/

theorem allOp_of_stackable {l : List Token} (h : ∀ t ∈ l, isStackable t = true)
    (hn : Token.LeftParen ∉ l) : ∀ t ∈ l, isOperation t = true := by
  intro t ht
  cases t with
  | Operation op => rfl
  | LeftParen => exact absurd ht hn
  | EOF => exact absurd (h _ ht) (by simp [isStackable])
  | Number n => exact absurd (h _ ht) (by simp [isStackable])
  | RightParen => exact absurd (h _ ht) (by simp [isStackable])

theorem filter_isOperation_self {l : List Token} (h : ∀ t ∈ l, isOperation t = true) :
    l.filter isOperation = l :=
  List.filter_eq_self.mpr h

theorem filter_isNumber_nil {l : List Token} (h : ∀ t ∈ l, isOperation t = true) :
    l.filter isNumber = [] := by
  rw [List.filter_eq_nil_iff]
  intro a ha
  have := h a ha
  cases a <;> simp_all [isOperation, isNumber]

theorem preEOF_nil : preEOF [] = [] := rfl

theorem preEOF_cons_of_ne {t : Token} (ts : List Token) (h : t ≠ Token.EOF) :
    preEOF (t :: ts) = t :: preEOF ts := by
  simp [preEOF, List.takeWhile_cons, h]

theorem preEOF_cons_eof (ts : List Token) : preEOF (Token.EOF :: ts) = [] := by
  simp [preEOF]

theorem mcoe_append (l₁ l₂ : List Token) :
    ((l₁ ++ l₂ : List Token) : Multiset Token) = ↑l₁ + ↑l₂ := rfl

theorem mcoe_cons (a : Token) (l : List Token) :
    ((a :: l : List Token) : Multiset Token) = {a} + (l : Multiset Token) := rfl

/-- Invariant carried through the reorderer's loop: on success, the output's
tokens are (as a multiset) the pending output, the operators still on the
stack, and the literal/operator tokens of the unconsumed input before its
first end-marker; moreover the integer literals appear in their input order. -/
theorem parseLoop_ok_content :
    ∀ (ts result stack out : List Token),
      (∀ t ∈ stack, isStackable t = true) →
      parseLoop ts result stack = some (.ok out) →
      (↑out : Multiset Token)
          = ↑result.reverse + ↑(stack.filter isOperation) + ↑((preEOF ts).filter isNumOp)
        ∧ out.filter isNumber
          = result.reverse.filter isNumber ++ (preEOF ts).filter isNumber := by
  intro ts
  induction ts with
  | nil =>
    intro result stack out h hp
    by_cases hm : Token.LeftParen ∈ stack
    · rw [show parseLoop [] result stack = parseFinish result stack from rfl,
        parseFinish_of_mem hm] at hp
      simp at hp
    · rw [show parseLoop [] result stack = parseFinish result stack from rfl,
        parseFinish_of_not_mem hm] at hp
      simp only [Option.some.injEq, Except.ok.injEq] at hp
      subst hp
      have hop := allOp_of_stackable h hm
      refine ⟨?_, ?_⟩
      · rw [filter_isOperation_self hop, preEOF_nil, List.filter_nil,
          Multiset.coe_nil, add_zero, mcoe_append]
      · rw [List.filter_append, filter_isNumber_nil hop, preEOF_nil,
          List.filter_nil, List.append_nil]
  | cons tok rest ih =>
    intro result stack out h hp
    cases tok with
    | EOF =>
      by_cases hm : Token.LeftParen ∈ stack
      · rw [show parseLoop (Token.EOF :: rest) result stack = parseFinish result stack
            from rfl, parseFinish_of_mem hm] at hp
        simp at hp
      · rw [show parseLoop (Token.EOF :: rest) result stack = parseFinish result stack
            from rfl, parseFinish_of_not_mem hm] at hp
        simp only [Option.some.injEq, Except.ok.injEq] at hp
        subst hp
        have hop := allOp_of_stackable h hm
        refine ⟨?_, ?_⟩
        · rw [filter_isOperation_self hop, preEOF_cons_eof, List.filter_nil,
            Multiset.coe_nil, add_zero, mcoe_append]
        · rw [List.filter_append, filter_isNumber_nil hop, preEOF_cons_eof,
            List.filter_nil, List.append_nil]
    | Number n =>
      replace hp : parseLoop rest (Token.Number n :: result) stack = some (.ok out) := hp
      obtain ⟨ih1, ih2⟩ := ih (Token.Number n :: result) stack out h hp
      rw [preEOF_cons_of_ne rest (by simp)]
      refine ⟨?_, ?_⟩
      · rw [ih1, List.filter_cons_of_pos (by rfl : isNumOp (Token.Number n) = true)]
        simp only [List.reverse_cons, mcoe_append, mcoe_cons]
        abel
      · rw [ih2, List.filter_cons_of_pos (by rfl : isNumber (Token.Number n) = true),
          List.reverse_cons, List.filter_append]
        simp [isNumber]
    | LeftParen =>
      replace hp : parseLoop rest result (Token.LeftParen :: stack) = some (.ok out) := hp
      have h' : ∀ t ∈ Token.LeftParen :: stack, isStackable t = true := by
        intro t ht
        rcases List.mem_cons.mp ht with rfl | ht'
        · rfl
        · exact h t ht'
      obtain ⟨ih1, ih2⟩ := ih result (Token.LeftParen :: stack) out h' hp
      rw [preEOF_cons_of_ne rest (by simp)]
      refine ⟨?_, ?_⟩
      · rw [ih1, List.filter_cons_of_neg (by simp [isOperation]),
          List.filter_cons_of_neg (by simp [isNumOp])]
      · rw [ih2, List.filter_cons_of_neg (by simp [isNumber])]
    | RightParen =>
      by_cases hm : Token.LeftParen ∈ stack
      · rcases exists_first_occurrence hm with ⟨A, S, rfl, hA⟩
        rw [parseLoop_rightParen_found rest result S hA] at hp
        have hS : ∀ t ∈ S, isStackable t = true :=
          fun t ht => h t (List.mem_append_right A (List.mem_cons_of_mem _ ht))
        obtain ⟨ih1, ih2⟩ := ih (A.reverse ++ result) S out hS hp
        have hAop : ∀ t ∈ A, isOperation t = true :=
          allOp_of_stackable (fun t ht => h t (List.mem_append_left _ ht)) hA
        rw [preEOF_cons_of_ne rest (by simp)]
        refine ⟨?_, ?_⟩
        · rw [ih1, List.filter_append, filter_isOperation_self hAop,
            List.filter_cons_of_neg (by simp [isOperation]),
            List.filter_cons_of_neg (by simp [isNumOp])]
          simp only [List.reverse_append, List.reverse_reverse, mcoe_append]
          abel
        · rw [ih2, List.filter_cons_of_neg (by simp [isNumber]),
            List.reverse_append, List.reverse_reverse, List.filter_append,
            filter_isNumber_nil hAop]
          simp
      · rw [parseLoop_rightParen_not_found rest result hm] at hp
        simp at hp
    | Operation op =>
      rw [parseLoop_operation_step op rest result stack h] at hp
      have htake : ∀ t ∈ stack.takeWhile (popsBefore op), isOperation t = true :=
        fun t ht => isOperation_of_popsBefore (List.mem_takeWhile_imp ht)
      have h' : ∀ t ∈ Token.Operation op :: stack.dropWhile (popsBefore op),
          isStackable t = true := by
        intro t ht
        rcases List.mem_cons.mp ht with rfl | ht'
        · rfl
        · exact h t (List.dropWhile_subset _ ht')
      obtain ⟨ih1, ih2⟩ := ih _ _ out h' hp
      have hfil : stack.filter isOperation
          = stack.takeWhile (popsBefore op)
            ++ (stack.dropWhile (popsBefore op)).filter isOperation := by
        conv_lhs => rw [← List.takeWhile_append_dropWhile (popsBefore op) stack]
        rw [List.filter_append, filter_isOperation_self htake]
      rw [preEOF_cons_of_ne rest (by simp)]
      refine ⟨?_, ?_⟩
      · rw [ih1, hfil,
          List.filter_cons_of_pos (by rfl : isOperation (Token.Operation op) = true),
          List.filter_cons_of_pos (by rfl : isNumOp (Token.Operation op) = true)]
        simp only [List.reverse_append, List.reverse_reverse, mcoe_append, mcoe_cons]
        abel
      · rw [ih2, List.filter_cons_of_neg (by simp [isNumber]),
          List.reverse_append, List.reverse_reverse, List.filter_append,
          filter_isNumber_nil htake]
        simp

/-! ### Step lemmas for the tokenizer -/

/-- The characters the tokenizer recognizes (every `match character` arm other
than the catch-all `_`). -/
abbrev goodCharP (c : Char) : Prop :=
  c = ' ' ∨ c = ';' ∨ c = '\n' ∨ c = '*' ∨ c = '/' ∨ c = '+' ∨ c = '-' ∨
  c = '(' ∨ c = ')' ∨ isDigitChar c

/-- The effect of the tokenizer's digit arm on the accumulated tokens: merge
into a trailing literal, otherwise start a fresh one. -/
def digitPush (c : Char) : List Token → List Token
  | Token.Number i :: result' => Token.Number (wrap32 (i * 10 + digitVal c)) :: result'
  | result => Token.Number (digitVal c) :: result

theorem lexLoop_space (cs : List Char) (acc : List Token) :
    lexLoop (' ' :: cs) acc = lexLoop cs acc := rfl

theorem lexLoop_mul (cs : List Char) (acc : List Token) :
    lexLoop ('*' :: cs) acc = lexLoop cs (Token.Operation Op.Mul :: acc) := rfl

theorem lexLoop_div (cs : List Char) (acc : List Token) :
    lexLoop ('/' :: cs) acc = lexLoop cs (Token.Operation Op.Div :: acc) := rfl

theorem lexLoop_add (cs : List Char) (acc : List Token) :
    lexLoop ('+' :: cs) acc = lexLoop cs (Token.Operation Op.Add :: acc) := rfl

theorem lexLoop_sub (cs : List Char) (acc : List Token) :
    lexLoop ('-' :: cs) acc = lexLoop cs (Token.Operation Op.Sub :: acc) := rfl

theorem lexLoop_lparen (cs : List Char) (acc : List Token) :
    lexLoop ('(' :: cs) acc = lexLoop cs (Token.LeftParen :: acc) := rfl

theorem lexLoop_rparen (cs : List Char) (acc : List Token) :
    lexLoop (')' :: cs) acc = lexLoop cs (Token.RightParen :: acc) := rfl

theorem lexLoop_term {c : Char} (h : c = ';' ∨ c = '\n') (cs : List Char)
    (acc : List Token) :
    lexLoop (c :: cs) acc = .ok (Token.EOF :: acc).reverse := by
  rcases h with rfl | rfl <;> rfl

theorem digit_not_sep {c : Char} (h : isDigitChar c) :
    c ≠ ' ' ∧ ¬(c = ';' ∨ c = '\n') ∧ c ≠ '*' ∧ c ≠ '/' ∧ c ≠ '+' ∧ c ≠ '-' ∧
      c ≠ '(' ∧ c ≠ ')' := by
  rcases h with rfl | rfl | rfl | rfl | rfl | rfl | rfl | rfl | rfl | rfl <;> decide

theorem lexLoop_digit {c : Char} (h : isDigitChar c) (cs : List Char)
    (acc : List Token) :
    lexLoop (c :: cs) acc = lexLoop cs (digitPush c acc) := by
  obtain ⟨h1, h2, h3, h4, h5, h6, h7, h8⟩ := digit_not_sep h
  simp only [lexLoop]
  rw [if_neg h1, if_neg h2, if_neg h3, if_neg h4, if_neg h5, if_neg h6, if_neg h7,
    if_neg h8, if_pos h]
  cases acc with
  | nil => rfl
  | cons t rest => cases t <;> rfl

theorem lexLoop_bad {c : Char} (h : ¬goodCharP c) (cs : List Char)
    (acc : List Token) :
    lexLoop (c :: cs) acc = .error ParsingError.BadInput := by
  simp only [goodCharP, isDigitChar, not_or] at h
  obtain ⟨h1, h2, h3, h4, h5, h6, h7, h8, h9, d0, d1, d2, d3, d4, d5, d6, d7, d8, d9⟩ := h
  simp only [lexLoop]
  rw [if_neg h1, if_neg (not_or.mpr ⟨h2, h3⟩), if_neg h4, if_neg h5, if_neg h6,
    if_neg h7, if_neg h8, if_neg h9,
    if_neg (show ¬isDigitChar c by
      simp only [isDigitChar, not_or]
      exact ⟨d0, d1, d2, d3, d4, d5, d6, d7, d8, d9⟩)]

theorem char_cases (c : Char) :
    c = ' ' ∨ (c = ';' ∨ c = '\n') ∨ c = '*' ∨ c = '/' ∨ c = '+' ∨ c = '-' ∨
      c = '(' ∨ c = ')' ∨ isDigitChar c ∨ ¬goodCharP c := by
  by_cases h : goodCharP c
  · -- regroup the ten recognized-character cases under the claim's arms,
    -- pairing the two terminator characters
    rcases h with h | h | h | h | h | h | h | h | h | h
    exacts [.inl h, .inr (.inl (.inl h)), .inr (.inl (.inr h)), .inr (.inr (.inl h)),
      .inr (.inr (.inr (.inl h))), .inr (.inr (.inr (.inr (.inl h)))),
      .inr (.inr (.inr (.inr (.inr (.inl h))))),
      .inr (.inr (.inr (.inr (.inr (.inr (.inl h)))))),
      .inr (.inr (.inr (.inr (.inr (.inr (.inr (.inl h))))))),
      .inr (.inr (.inr (.inr (.inr (.inr (.inr (.inr (.inl h))))))))]
  · exact .inr (.inr (.inr (.inr (.inr (.inr (.inr (.inr (.inr h))))))))

/-! ### Tokenizer traversal lemmas -/

/-- Formalization of the failure condition the spec states for the tokenizer:
scanning left to right, a character outside the recognized set is reached
before any terminator (semicolon or newline). -/
def badBeforeTerm : List Char → Prop
  | [] => False
  | c :: cs => ¬(c = ';' ∨ c = '\n') ∧ (¬goodCharP c ∨ badBeforeTerm cs)

theorem badBeforeTerm_good {c : Char} (hg : goodCharP c)
    (hnt : ¬(c = ';' ∨ c = '\n')) (cs : List Char) :
    badBeforeTerm (c :: cs) ↔ badBeforeTerm cs := by
  constructor
  · rintro ⟨-, h | h⟩
    · exact absurd hg h
    · exact h
  · intro hb
    exact ⟨hnt, Or.inr hb⟩

theorem badBeforeTerm_bad {c : Char} (hg : ¬goodCharP c) (cs : List Char) :
    badBeforeTerm (c :: cs) := by
  refine ⟨fun h => hg ?_, Or.inl hg⟩
  rcases h with h | h
  · exact Or.inr (Or.inl h)
  · exact Or.inr (Or.inr (Or.inl h))

theorem badBeforeTerm_term {c : Char} (h : c = ';' ∨ c = '\n') (cs : List Char) :
    ¬badBeforeTerm (c :: cs) :=
  fun hb => hb.1 h

theorem goodCharP_of_digit {c : Char} (h : isDigitChar c) : goodCharP c :=
  Or.inr (Or.inr (Or.inr (Or.inr (Or.inr (Or.inr (Or.inr (Or.inr (Or.inr h))))))))

/-- The tokenizer errors exactly when an unrecognized character precedes every
terminator; the accumulated tokens are irrelevant to error-ness. -/
theorem lexLoop_error_iff :
    ∀ (cs : List Char) (acc : List Token),
      (lexLoop cs acc = .error ParsingError.BadInput ↔ badBeforeTerm cs) := by
  intro cs
  induction cs with
  | nil =>
    intro acc
    simp [lexLoop, badBeforeTerm]
  | cons c rest ih =>
    intro acc
    rcases char_cases c with rfl | hc | rfl | rfl | rfl | rfl | rfl | rfl | hc | hc
    · rw [lexLoop_space, badBeforeTerm_good (by decide) (by decide)]
      exact ih acc
    · rw [lexLoop_term hc]
      exact ⟨fun he => absurd he (by simp), fun hb => absurd hb (badBeforeTerm_term hc rest)⟩
    · rw [lexLoop_mul, badBeforeTerm_good (by decide) (by decide)]
      exact ih _
    · rw [lexLoop_div, badBeforeTerm_good (by decide) (by decide)]
      exact ih _
    · rw [lexLoop_add, badBeforeTerm_good (by decide) (by decide)]
      exact ih _
    · rw [lexLoop_sub, badBeforeTerm_good (by decide) (by decide)]
      exact ih _
    · rw [lexLoop_lparen, badBeforeTerm_good (by decide) (by decide)]
      exact ih _
    · rw [lexLoop_rparen, badBeforeTerm_good (by decide) (by decide)]
      exact ih _
    · rw [lexLoop_digit hc,
        badBeforeTerm_good (goodCharP_of_digit hc) (digit_not_sep hc).2.1]
      exact ih _
    · rw [lexLoop_bad hc]
      exact ⟨fun _ => badBeforeTerm_bad hc rest, fun _ => rfl⟩

theorem digitPush_no_eof {c : Char} {acc : List Token} (h : Token.EOF ∉ acc) :
    Token.EOF ∉ digitPush c acc := by
  cases acc with
  | nil => simp [digitPush]
  | cons t rest =>
    rw [List.mem_cons, not_or] at h
    cases t <;> simp_all [digitPush]

/-- If no terminator occurs in the input, the tokenizer never emits an
end-marker. -/
theorem lexLoop_ok_no_eof :
    ∀ (cs : List Char) (acc out : List Token),
      Token.EOF ∉ acc → (∀ c ∈ cs, ¬(c = ';' ∨ c = '\n')) →
      lexLoop cs acc = .ok out → Token.EOF ∉ out := by
  intro cs
  induction cs with
  | nil =>
    intro acc out h _ hp
    simp only [lexLoop, Except.ok.injEq] at hp
    subst hp
    simpa using h
  | cons c rest ih =>
    intro acc out h hterm hp
    have hc := hterm c (List.mem_cons_self _ _)
    have hrest : ∀ x ∈ rest, ¬(x = ';' ∨ x = '\n') :=
      fun x hx => hterm x (List.mem_cons_of_mem _ hx)
    have hpush : ∀ t : Token, t ≠ Token.EOF → Token.EOF ∉ t :: acc := by
      intro t hne
      rw [List.mem_cons, not_or]
      exact ⟨fun e => hne e.symm, h⟩
    rcases char_cases c with rfl | hc' | rfl | rfl | rfl | rfl | rfl | rfl | hd | hb
    · rw [lexLoop_space] at hp
      exact ih acc out h hrest hp
    · exact absurd hc' hc
    · rw [lexLoop_mul] at hp
      exact ih _ out (hpush _ (by simp)) hrest hp
    · rw [lexLoop_div] at hp
      exact ih _ out (hpush _ (by simp)) hrest hp
    · rw [lexLoop_add] at hp
      exact ih _ out (hpush _ (by simp)) hrest hp
    · rw [lexLoop_sub] at hp
      exact ih _ out (hpush _ (by simp)) hrest hp
    · rw [lexLoop_lparen] at hp
      exact ih _ out (hpush _ (by simp)) hrest hp
    · rw [lexLoop_rparen] at hp
      exact ih _ out (hpush _ (by simp)) hrest hp
    · rw [lexLoop_digit hd] at hp
      exact ih _ out (digitPush_no_eof h) hrest hp
    · rw [lexLoop_bad hb] at hp
      exact absurd hp (by simp)

/-- The tokenizer's behavior is unchanged by deleting every space character
from its input. -/
theorem lexLoop_filter_space :
    ∀ (cs : List Char) (acc : List Token),
      lexLoop cs acc = lexLoop (cs.filter fun c => decide (c ≠ ' ')) acc := by
  intro cs
  induction cs with
  | nil => intro acc; rfl
  | cons c rest ih =>
    intro acc
    rcases char_cases c with rfl | hc | rfl | rfl | rfl | rfl | rfl | rfl | hd | hb
    · rw [lexLoop_space, List.filter_cons_of_neg (by decide)]
      exact ih acc
    · have hk : decide (c ≠ ' ') = true := by rcases hc with rfl | rfl <;> decide
      rw [@List.filter_cons_of_pos Char (fun x => decide (x ≠ ' ')) c rest hk,
        lexLoop_term hc, lexLoop_term hc]
    · rw [List.filter_cons_of_pos (by decide), lexLoop_mul, lexLoop_mul]
      exact ih _
    · rw [List.filter_cons_of_pos (by decide), lexLoop_div, lexLoop_div]
      exact ih _
    · rw [List.filter_cons_of_pos (by decide), lexLoop_add, lexLoop_add]
      exact ih _
    · rw [List.filter_cons_of_pos (by decide), lexLoop_sub, lexLoop_sub]
      exact ih _
    · rw [List.filter_cons_of_pos (by decide), lexLoop_lparen, lexLoop_lparen]
      exact ih _
    · rw [List.filter_cons_of_pos (by decide), lexLoop_rparen, lexLoop_rparen]
      exact ih _
    · have hk : decide (c ≠ ' ') = true := decide_eq_true (digit_not_sep hd).1
      rw [@List.filter_cons_of_pos Char (fun x => decide (x ≠ ' ')) c rest hk,
        lexLoop_digit hd, lexLoop_digit hd]
      exact ih _
    · have hk : decide (c ≠ ' ') = true :=
        decide_eq_true fun e => hb (Or.inl e)
      rw [@List.filter_cons_of_pos Char (fun x => decide (x ≠ ' ')) c rest hk,
        lexLoop_bad hb, lexLoop_bad hb]

/-! ### Decimal accumulation of digit-only inputs -/

/-- The exact (unbounded) decimal value of a digit string, accumulated left to
right as `value * 10 + digit`. -/
def decVal (cs : List Char) : Int :=
  cs.foldl (fun a c => a * 10 + digitVal c) 0

theorem wrap32_add_mul (x k : Int) : wrap32 (x + 2 ^ 32 * k) = wrap32 x := by
  unfold wrap32
  rw [add_right_comm, Int.add_mul_emod_self_left]

theorem wrap32_mul_add (a d : Int) :
    wrap32 (wrap32 a * 10 + d) = wrap32 (a * 10 + d) := by
  have ha : wrap32 a = a + 2 ^ 32 * (-((a + 2 ^ 31) / 2 ^ 32)) := by
    unfold wrap32
    rw [Int.emod_def]
    ring
  have hb : (a + 2 ^ 32 * (-((a + 2 ^ 31) / 2 ^ 32))) * 10 + d
      = a * 10 + d + 2 ^ 32 * (-((a + 2 ^ 31) / 2 ^ 32) * 10) := by
    ring
  rw [ha, hb, wrap32_add_mul]

theorem wrap32_of_small {x : Int} (h0 : 0 ≤ x) (h1 : x < 2 ^ 31) : wrap32 x = x := by
  unfold wrap32
  rw [Int.emod_eq_of_lt (by omega) (by omega)]
  omega

theorem digitVal_bounds {c : Char} (h : isDigitChar c) :
    0 ≤ digitVal c ∧ digitVal c < 10 := by
  rcases h with rfl | rfl | rfl | rfl | rfl | rfl | rfl | rfl | rfl | rfl <;> decide

/-- Iterated wrapping accumulation agrees with wrapping the exact accumulation
once, provided the seed is already reduced. -/
theorem foldl_wrap_eq :
    ∀ (cs : List Char) (i : Int),
      cs.foldl (fun a c => wrap32 (a * 10 + digitVal c)) (wrap32 i)
        = wrap32 (cs.foldl (fun a c => a * 10 + digitVal c) i) := by
  intro cs
  induction cs with
  | nil => intro i; rfl
  | cons c rest ih =>
    intro i
    simp only [List.foldl_cons]
    rw [wrap32_mul_add, ih (i * 10 + digitVal c)]

/-- Running the tokenizer over a digit-only tail with a pending literal merges
every digit into that literal. -/
theorem lexLoop_digits :
    ∀ (cs : List Char) (i : Int), (∀ c ∈ cs, isDigitChar c) →
      lexLoop cs [Token.Number i]
        = .ok [Token.Number (cs.foldl (fun a c => wrap32 (a * 10 + digitVal c)) i)] := by
  intro cs
  induction cs with
  | nil => intro i _; rfl
  | cons c rest ih =>
    intro i h
    have hc : isDigitChar c := h c (List.mem_cons_self _ _)
    rw [lexLoop_digit hc,
      show digitPush c [Token.Number i] = [Token.Number (wrap32 (i * 10 + digitVal c))]
        from rfl,
      ih _ fun x hx => h x (List.mem_cons_of_mem _ hx)]
    rfl

theorem foldl_decVal_nonneg :
    ∀ (cs : List Char) (i : Int), 0 ≤ i → (∀ c ∈ cs, isDigitChar c) →
      0 ≤ cs.foldl (fun a c => a * 10 + digitVal c) i := by
  intro cs
  induction cs with
  | nil => intro i h _; exact h
  | cons c rest ih =>
    intro i h hd
    have hc := digitVal_bounds (hd c (List.mem_cons_self _ _))
    simp only [List.foldl_cons]
    exact ih _ (by omega) fun x hx => hd x (List.mem_cons_of_mem _ hx)

/-! ### Sequences the reorderer leaves unchanged -/

/-- Modelled from the spec's glossary entry for Reverse Polish order ("tokens
arranged so every operator follows its operands"): a single left-to-right
stack-evaluation pass in which every operator finds two operands and exactly
one value remains at the end. Parens and end-markers have no place in such a
sequence. -/
def rpnRun : List Token → Nat → Option Nat
  | [], n => some n
  | Token.Number _ :: ts, n => rpnRun ts (n + 1)
  | Token.Operation _ :: ts, n + 2 => rpnRun ts (n + 1)
  | _, _ => none

/-- A token sequence in Reverse Polish (operator-after-operands) order. -/
abbrev isRPN (ts : List Token) : Prop := rpnRun ts 0 = some 1

/-- No two adjacent tokens are operators of equal precedence (the spec's "no
adjacent same-precedence ambiguity"), checked pairwise along the sequence. -/
def noAdjSamePrecAux : Token → List Token → Bool
  | _, [] => true
  | prev, t :: rest =>
    (match prev, t with
     | Token.Operation a, Token.Operation b => decide (a.precedence ≠ b.precedence)
     | _, _ => true)
    && noAdjSamePrecAux t rest

/-- See `noAdjSamePrecAux`. -/
def noAdjSamePrec : List Token → Bool
  | [] => true
  | t :: rest => noAdjSamePrecAux t rest

/-- Strictly decreasing precedence along a run of operators. -/
def decPrecAux : Op → List Op → Bool
  | _, [] => true
  | prev, o :: rest => decide (o.precedence < prev.precedence) && decPrecAux o rest

/-- See `decPrecAux`. -/
def decPrec : List Op → Bool
  | [] => true
  | o :: rest => decPrecAux o rest

theorem parseLoop_numbers :
    ∀ (ns : List Int) (rest result stack : List Token),
      parseLoop (ns.map Token.Number ++ rest) result stack
        = parseLoop rest ((ns.map Token.Number).reverse ++ result) stack := by
  intro ns
  induction ns with
  | nil => intro rest result stack; rfl
  | cons n ns ih =>
    intro rest result stack
    show parseLoop (ns.map Token.Number ++ rest) (Token.Number n :: result) stack = _
    rw [ih rest (Token.Number n :: result) stack]
    simp [List.append_assoc]

theorem parseLoop_ops_chain :
    ∀ (os : List Op) (o : Op) (result : List Token), decPrecAux o os = true →
      parseLoop (os.map Token.Operation) result [Token.Operation o]
        = some (.ok (result.reverse ++ Token.Operation o :: os.map Token.Operation)) := by
  intro os
  induction os with
  | nil =>
    intro o result _
    show parseFinish result [Token.Operation o] = _
    rw [parseFinish_of_not_mem (by simp)]
    rfl
  | cons o2 os ih =>
    intro o result h
    simp only [decPrecAux, Bool.and_eq_true, decide_eq_true_eq] at h
    have hstep : popHigherPrec o2 [Token.Operation o] result
        = some ([], Token.Operation o :: result) := by
      simp [popHigherPrec, h.1]
    show (match popHigherPrec o2 [Token.Operation o] result with
      | none => none
      | some (stack', result') =>
          parseLoop (os.map Token.Operation) result' (Token.Operation o2 :: stack'))
        = _
    rw [hstep]
    show parseLoop (os.map Token.Operation) (Token.Operation o :: result)
        [Token.Operation o2] = _
    rw [ih o2 (Token.Operation o :: result) h.2]
    simp

/-! ### Claim theorems -/

/-- Claim C1: when the reorderer consumes an operator token `op`, it pops
operators off the auxiliary stack into the output only while the top is an
operator of strictly greater precedence, stopping (without popping) at an open
paren, an equal-or-lower-precedence top, or an empty stack, and then pushes
`op`; consequently equal-precedence chains come out right-grouped: the infix
tokens of `8 - 3 - 2` reorder to `[8, 3, 2, Sub, Sub]`, not
`[8, 3, Sub, 2, Sub]`. -/
theorem parse_operator_step :
    (∀ (op : Op) (ts result stack : List Token),
        (∀ t ∈ stack, isStackable t = true) →
        parseLoop (Token.Operation op :: ts) result stack
          = parseLoop ts ((stack.takeWhile (popsBefore op)).reverse ++ result)
              (Token.Operation op :: stack.dropWhile (popsBefore op)))
      ∧ parse [Token.Number 8, Token.Operation Op.Sub, Token.Number 3,
            Token.Operation Op.Sub, Token.Number 2]
          = some (.ok [Token.Number 8, Token.Number 3, Token.Number 2,
              Token.Operation Op.Sub, Token.Operation Op.Sub])
      ∧ ([Token.Number 8, Token.Number 3, Token.Number 2, Token.Operation Op.Sub,
            Token.Operation Op.Sub] : List Token)
          ≠ [Token.Number 8, Token.Number 3, Token.Operation Op.Sub, Token.Number 2,
              Token.Operation Op.Sub] :=
  ⟨parseLoop_operation_step, rfl, by decide⟩

theorem parse_operator_step_witness :
    parseLoop [Token.Operation Op.Add] [] [Token.Operation Op.Mul]
      = parseLoop [] [Token.Operation Op.Mul] [Token.Operation Op.Add] :=
  parse_operator_step.1 Op.Add [] [] [Token.Operation Op.Mul] (by decide)

/-- Claim C2: whenever the reorderer succeeds, its output is exactly the
integer-literal and operator tokens occurring in the input before the first
end-marker — the same tokens as a multiset, with the literals keeping their
relative order — with parens and the end-marker removed and everything after
the first end-marker ignored; no paren or end-marker token appears in the
output. -/
theorem parse_ok_token_content (ts out : List Token)
    (h : parse ts = some (.ok out)) :
    (↑out : Multiset Token) = ↑((preEOF ts).filter isNumOp)
      ∧ out.filter isNumber = (preEOF ts).filter isNumber
      ∧ ∀ t ∈ out, isNumOp t = true := by
  obtain ⟨h1, h2⟩ := parseLoop_ok_content ts [] [] out (by simp) h
  have h1' : (↑out : Multiset Token) = ↑((preEOF ts).filter isNumOp) := by
    simpa using h1
  have h2' : out.filter isNumber = (preEOF ts).filter isNumber := by
    simpa using h2
  refine ⟨h1', h2', fun t ht => ?_⟩
  have hm : t ∈ (preEOF ts).filter isNumOp := by
    have hmem : t ∈ (↑((preEOF ts).filter isNumOp) : Multiset Token) := by
      rw [← h1']
      exact Multiset.mem_coe.mpr ht
    exact Multiset.mem_coe.mp hmem
  exact List.of_mem_filter hm

theorem parse_ok_token_content_witness :
    ((↑[Token.Number 1] : Multiset Token)
        = ↑((preEOF [Token.Number 1]).filter isNumOp))
      ∧ [Token.Number 1].filter isNumber = (preEOF [Token.Number 1]).filter isNumber
      ∧ ∀ t ∈ [Token.Number 1], isNumOp t = true :=
  parse_ok_token_content [Token.Number 1] [Token.Number 1] rfl

set_option maxRecDepth 20000 in
/-- Claim C3: tokenizing and then reordering `3 + 4 * (420 - 69) / (2 + 4)`
succeeds, and yields exactly the postfix sequence
`[3, 4, 420, 69, Sub, 2, 4, Add, Div, Mul, Add]`. -/
theorem lex_parse_end_to_end :
    lex "3 + 4 * (420 - 69) / (2 + 4)"
        = .ok [Token.Number 3, Token.Operation Op.Add, Token.Number 4,
            Token.Operation Op.Mul, Token.LeftParen, Token.Number 420,
            Token.Operation Op.Sub, Token.Number 69, Token.RightParen,
            Token.Operation Op.Div, Token.LeftParen, Token.Number 2,
            Token.Operation Op.Add, Token.Number 4, Token.RightParen]
      ∧ parse [Token.Number 3, Token.Operation Op.Add, Token.Number 4,
            Token.Operation Op.Mul, Token.LeftParen, Token.Number 420,
            Token.Operation Op.Sub, Token.Number 69, Token.RightParen,
            Token.Operation Op.Div, Token.LeftParen, Token.Number 2,
            Token.Operation Op.Add, Token.Number 4, Token.RightParen]
          = some (.ok [Token.Number 3, Token.Number 4, Token.Number 420,
              Token.Number 69, Token.Operation Op.Sub, Token.Number 2,
              Token.Number 4, Token.Operation Op.Add, Token.Operation Op.Div,
              Token.Operation Op.Mul, Token.Operation Op.Add]) :=
  ⟨rfl, rfl⟩

set_option maxRecDepth 20000 in
/-- Claim C4 falls to `i32` overflow: the ten-digit input `9999999999` is
digit-only and non-empty, yet the tokenizer returns the wrapped literal
`1410065407` (its decimal value reduced into the `i32` range), not
`9999999999`. -/
theorem lex_digit_overflow_counterexample :
    ("9999999999" : String).data ≠ []
      ∧ (∀ c ∈ ("9999999999" : String).data, isDigitChar c)
      ∧ decVal ("9999999999" : String).data = 9999999999
      ∧ lex "9999999999" = .ok [Token.Number 1410065407]
      ∧ ([Token.Number 1410065407] : List Token) ≠ [Token.Number 9999999999] :=
  ⟨by decide, by decide, by decide, rfl, by decide⟩

/-- Claim C4 (amended): for every non-empty digit-only input the tokenizer
yields exactly one literal, built by left-to-right accumulation
`value * 10 + digit` in `i32` arithmetic, so its value is the decimal value of
the digit string reduced into the `i32` range; whenever that decimal value is
below `2^31` it is the exact decimal value (e.g. `lex "420" = Ok [Number 420]`). -/
theorem lex_digit_string (s : String) (h1 : s.data ≠ [])
    (h2 : ∀ c ∈ s.data, isDigitChar c) :
    lex s = .ok [Token.Number (wrap32 (decVal s.data))]
      ∧ (decVal s.data < 2 ^ 31 → lex s = .ok [Token.Number (decVal s.data)])
      ∧ lex "420" = .ok [Token.Number 420] := by
  obtain ⟨c, cs, hcs⟩ : ∃ c cs, s.data = c :: cs := by
    cases hsd : s.data with
    | nil => exact absurd hsd h1
    | cons c cs => exact ⟨c, cs, rfl⟩
  have hc : isDigitChar c := h2 c (by rw [hcs]; exact List.mem_cons_self _ _)
  have hcs' : ∀ x ∈ cs, isDigitChar x :=
    fun x hx => h2 x (by rw [hcs]; exact List.mem_cons_of_mem _ hx)
  have hb := digitVal_bounds hc
  have key : lex s = .ok [Token.Number (wrap32 (decVal s.data))] := by
    unfold lex
    rw [hcs, lexLoop_digit hc,
      show digitPush c [] = [Token.Number (digitVal c)] from rfl,
      lexLoop_digits cs (digitVal c) hcs']
    have e1 : decVal (c :: cs) = cs.foldl (fun a x => a * 10 + digitVal x) (digitVal c) := by
      unfold decVal
      simp
    rw [e1, ← foldl_wrap_eq cs (digitVal c), wrap32_of_small hb.1 (by omega)]
  have h0 : 0 ≤ decVal s.data := foldl_decVal_nonneg s.data 0 le_rfl h2
  exact ⟨key, fun hlt => by rw [key, wrap32_of_small h0 hlt], rfl⟩

theorem lex_digit_string_witness :
    lex "42" = .ok [Token.Number (wrap32 (decVal ("42" : String).data))]
      ∧ (decVal ("42" : String).data < 2 ^ 31
          → lex "42" = .ok [Token.Number (decVal ("42" : String).data)])
      ∧ lex "420" = .ok [Token.Number 420] :=
  lex_digit_string "42" (by decide) (by decide)

/-- Claim C5: the reorderer reports the unmatched-paren error in exactly two
situations — a close paren whose stack drain finds no open paren, and a final
drain that does find one; when a close paren is matched, the open paren is
discarded rather than emitted; in particular both `[LeftParen]` and
`[RightParen]` fail with this error. -/
theorem parse_unmatched_paren_characterization :
    (∀ (ts result stack : List Token), Token.LeftParen ∉ stack →
        parseLoop (Token.RightParen :: ts) result stack
          = some (.error ParsingError.NoMatchingParen))
      ∧ (∀ (ts result A S : List Token), Token.LeftParen ∉ A →
          parseLoop (Token.RightParen :: ts) result (A ++ Token.LeftParen :: S)
            = parseLoop ts (A.reverse ++ result) S)
      ∧ (∀ result stack : List Token, Token.LeftParen ∈ stack →
          parseFinish result stack = some (.error ParsingError.NoMatchingParen))
      ∧ (∀ result stack : List Token, Token.LeftParen ∉ stack →
          parseFinish result stack = some (.ok (result.reverse ++ stack)))
      ∧ parse [Token.LeftParen] = some (.error ParsingError.NoMatchingParen)
      ∧ parse [Token.RightParen] = some (.error ParsingError.NoMatchingParen) :=
  ⟨fun ts result _ h => parseLoop_rightParen_not_found ts result h,
   fun ts result _ S hA => parseLoop_rightParen_found ts result S hA,
   fun _ _ h => parseFinish_of_mem h,
   fun _ _ h => parseFinish_of_not_mem h,
   rfl, rfl⟩

theorem parse_unmatched_paren_witness :
    parseLoop [Token.RightParen] [] [] = some (.error ParsingError.NoMatchingParen)
      ∧ parseFinish [] [Token.LeftParen] = some (.error ParsingError.NoMatchingParen) :=
  ⟨parse_unmatched_paren_characterization.1 [] [] [] (by decide),
   parse_unmatched_paren_characterization.2.2.1 [] [Token.LeftParen] (by decide)⟩

/-- Claim C6: the tokenizer returns `BadInput` exactly when, scanning left to
right, a character outside the recognized set is reached before any terminator
(only the error is returned, never a partial sequence — the result type allows
no such thing); e.g. `lex "tacos are tasty"` fails this way. -/
theorem lex_badInput_iff :
    (∀ s : String, lex s = .error ParsingError.BadInput ↔ badBeforeTerm s.data)
      ∧ lex "tacos are tasty" = .error ParsingError.BadInput :=
  ⟨fun s => lexLoop_error_iff s.data [], rfl⟩

/-- Claim C7: a semicolon or newline makes the tokenizer append an end-marker
and stop at once — the remaining characters, recognizable or not, are never
examined — while an input exhausted without a terminator is returned as-is,
with no end-marker anywhere in it. -/
theorem lex_terminator_behavior :
    (∀ (c : Char) (cs : List Char) (acc : List Token), (c = ';' ∨ c = '\n') →
        lexLoop (c :: cs) acc = .ok (Token.EOF :: acc).reverse)
      ∧ (∀ (s : String) (out : List Token),
          (∀ c ∈ s.data, ¬(c = ';' ∨ c = '\n')) → lex s = .ok out →
          Token.EOF ∉ out) :=
  ⟨fun _ cs acc h => lexLoop_term h cs acc,
   fun s out hterm hp => lexLoop_ok_no_eof s.data [] out (by simp) hterm hp⟩

theorem lex_terminator_behavior_witness :
    lexLoop [';', 'x'] [] = .ok [Token.EOF]
      ∧ Token.EOF ∉ ([Token.Number 12] : List Token) :=
  ⟨lex_terminator_behavior.1 ';' ['x'] [] (by decide),
   lex_terminator_behavior.2 "12" [Token.Number 12] (by decide) rfl⟩

/-- Claim C8: starting from any stack holding only operator and open-paren
tokens — in particular the empty stack `parse` starts with, and every stack the
loop itself ever builds — the reorderer completes without an internal panic:
the `unreachable!` arm, the `stack.pop().unwrap()` (modelled structurally on an
already-matched non-empty stack), and the final `assert!(stack.is_empty())`
never fire, for any input token sequence. -/
theorem parse_stack_invariant :
    (∀ (ts result stack : List Token), (∀ t ∈ stack, isStackable t = true) →
        (parseLoop ts result stack).isSome = true)
      ∧ ∀ ts : List Token, (parse ts).isSome = true :=
  ⟨parseLoop_isSome, fun ts => parseLoop_isSome ts [] [] (by simp)⟩

theorem parse_stack_invariant_witness :
    (parseLoop [Token.RightParen] [] [Token.LeftParen]).isSome = true :=
  parse_stack_invariant.1 [Token.RightParen] [] [Token.LeftParen] (by decide)

/-- Claim C9 fails as stated: `[1, 2, Add, 3, Mul]` is in postfix order (it is
the postfix form of `(1 + 2) * 3`), contains no parens, and has no adjacent
same-precedence operators, yet the reorderer returns `[1, 2, 3, Mul, Add]`,
not the input. -/
theorem parse_noop_counterexample :
    isRPN [Token.Number 1, Token.Number 2, Token.Operation Op.Add, Token.Number 3,
        Token.Operation Op.Mul]
      ∧ Token.LeftParen ∉ ([Token.Number 1, Token.Number 2, Token.Operation Op.Add,
          Token.Number 3, Token.Operation Op.Mul] : List Token)
      ∧ Token.RightParen ∉ ([Token.Number 1, Token.Number 2, Token.Operation Op.Add,
          Token.Number 3, Token.Operation Op.Mul] : List Token)
      ∧ noAdjSamePrec [Token.Number 1, Token.Number 2, Token.Operation Op.Add,
          Token.Number 3, Token.Operation Op.Mul] = true
      ∧ parse [Token.Number 1, Token.Number 2, Token.Operation Op.Add,
          Token.Number 3, Token.Operation Op.Mul]
        = some (.ok [Token.Number 1, Token.Number 2, Token.Number 3,
            Token.Operation Op.Mul, Token.Operation Op.Add])
      ∧ ([Token.Number 1, Token.Number 2, Token.Number 3, Token.Operation Op.Mul,
          Token.Operation Op.Add] : List Token)
        ≠ [Token.Number 1, Token.Number 2, Token.Operation Op.Add, Token.Number 3,
            Token.Operation Op.Mul] :=
  ⟨by decide, by decide, by decide, by decide, rfl, by decide⟩

/-- Claim C9 (amended): the reorderer is a no-op on every sequence of integer
literals followed by a run of operators of strictly decreasing precedence — in
particular on pure literal runs, which it never touches. This is a sufficient
condition, not a characterization of all no-op inputs. (The class claimed by
the spec — any paren-free postfix sequence without adjacent same-precedence
operators — is too broad; see the counterexample.) -/
theorem parse_noop_literals_then_decreasing (ns : List Int) (ops : List Op)
    (h : decPrec ops = true) :
    parse (ns.map Token.Number ++ ops.map Token.Operation)
      = some (.ok (ns.map Token.Number ++ ops.map Token.Operation)) := by
  unfold parse
  rw [parseLoop_numbers ns (ops.map Token.Operation) [] []]
  cases ops with
  | nil =>
    show parseFinish ((ns.map Token.Number).reverse ++ []) [] = _
    rw [parseFinish_of_not_mem (by simp)]
    simp
  | cons o os =>
    have h' : decPrecAux o os = true := h
    show (match popHigherPrec o [] ((ns.map Token.Number).reverse ++ []) with
      | none => none
      | some (stack', result') =>
          parseLoop (os.map Token.Operation) result' (Token.Operation o :: stack'))
      = _
    rw [show popHigherPrec o [] ((ns.map Token.Number).reverse ++ [])
        = some ([], (ns.map Token.Number).reverse ++ []) from rfl]
    show parseLoop (os.map Token.Operation) ((ns.map Token.Number).reverse ++ [])
        [Token.Operation o] = _
    rw [parseLoop_ops_chain os o _ h']
    simp

theorem parse_noop_witness :
    parse (([1, 2, 3] : List Int).map Token.Number
        ++ ([Op.Mul, Op.Add] : List Op).map Token.Operation)
      = some (.ok (([1, 2, 3] : List Int).map Token.Number
        ++ ([Op.Mul, Op.Add] : List Op).map Token.Operation)) :=
  parse_noop_literals_then_decreasing [1, 2, 3] [Op.Mul, Op.Add] (by decide)

/-- Claim C10: the tokenizer is insensitive to space characters anywhere in the
input — removing every space yields the same result — and in particular spaces
do not interrupt literal accumulation: `lex "4 2" = Ok [Number 42] = lex "42"`,
since digit merging looks only at the last emitted token. -/
theorem lex_space_insensitive :
    (∀ s : String,
        lex s = lex (String.mk (s.data.filter fun c => decide (c ≠ ' '))))
      ∧ lex "4 2" = .ok [Token.Number 42]
      ∧ lex "4 2" = lex "42" :=
  ⟨fun s => lexLoop_filter_space s.data [], rfl, rfl⟩

end Minicompiler
